import Mathlib

/-!
Shallow embedding of `movie_rating_prediction.py`, a matrix-factorization
rating predictor trained by gradient descent with momentum.

Real-number arithmetic (numpy float64) is modelled over `ℚ`; machine floats'
special values (NaN after 0/0) are modelled in a separate `Option ℚ` layer
(`QN`) used by the exception-aware model. Dataframes are lists of
observations; dense matrices are functions `ℕ → ℕ → ℚ` with the shape
carried separately where the source consults `.shape`.
-/

namespace MovieRating

/-- First occurrence position of `x` in `l` (length of `l` when absent);
models the position at which pandas first sees an identifier. -/
def posOf {α : Type} [DecidableEq α] (l : List α) (x : α) : ℕ :=
  match l with
  | [] => 0
  | a :: as => if x = a then 0 else posOf as x + 1

/-- `pandas.Series.unique`: distinct values in order of first appearance. -/
def uniqList {α : Type} [DecidableEq α] : List α → List α
  | [] => []
  | x :: xs => x :: uniqList (xs.filter (fun y => y ≠ x))
termination_by l => l.length
decreasing_by
  simp only [List.length_cons]
  exact Nat.lt_succ_of_le (List.length_filter_le _ _)

/-- Association list pairing each element of `l` with consecutive indices
starting at `k`; `enumFrom 0 uniq` models `{o:i for i,o in enumerate(uniq)}`. -/
def enumFrom {α : Type} (k : ℕ) : List α → List (α × ℕ)
  | [] => []
  | x :: xs => (x, k) :: enumFrom (k + 1) xs

/-- Python dict lookup on an association list (first matching key). -/
def lookupIdx {α : Type} [DecidableEq α] : List (α × ℕ) → α → Option ℕ
  | [], _ => none
  | (k, v) :: rest, x => if x = k then some v else lookupIdx rest x

/-- `proc_col`: encodes a column with values between `0` and `n-1` where `n`
is the number of unique values.  Returns the dict `name2idx`, the encoded
column, and `n`.  (`name2idx[x]` always succeeds on elements of `col`, so the
`getD 0` default is never taken.) -/
def proc_col {α : Type} [DecidableEq α] (col : List α) :
    List (α × ℕ) × List ℕ × ℕ :=
  let uniq := uniqList col
  let name2idx := enumFrom 0 uniq
  (name2idx, col.map (fun x => (lookupIdx name2idx x).getD 0), uniq.length)

/-- `Series.map(name2idx)`: per-position dict lookup, `none` standing for the
`NaN` produced by pandas at identifiers absent from the dict. -/
def seriesMap {α : Type} [DecidableEq α] (name2idx : List (α × ℕ))
    (col : List α) : List (Option ℕ) :=
  col.map (lookupIdx name2idx)

/-- `Series.fillna(v)` specialised to the encoded-index column: keeps present
values and replaces the missing ones by `v`. -/
def fillna (v : ℤ) (s : List (Option ℕ)) : List ℤ :=
  s.map (fun o => match o with | some i => (i : ℤ) | none => v)

/-- `df_val[c].map(name2idx).fillna(-1)`: applies a previously built encoding
to a new column, sending unseen identifiers to the sentinel `-1`. -/
def encode_col {α : Type} [DecidableEq α] (name2idx : List (α × ℕ))
    (col : List α) : List ℤ :=
  fillna (-1) (seriesMap name2idx col)

/-- A raw (unencoded) rating record: one row of the input dataframe. -/
structure RawObs (α β : Type) where
  userId : α
  movieId : β
  rating : ℚ

/-- `encode_new_data`: rebuilds the training encodings with `proc_col` and
applies them to the validation dataframe's id columns, leaving `-1` at
unseen identifiers. -/
def encode_new_data {α β : Type} [DecidableEq α] [DecidableEq β]
    (df_val : List (RawObs α β)) (df_train : List (RawObs α β)) :
    List ℤ × List ℤ × List ℚ :=
  let user2idx := (proc_col (df_train.map RawObs.userId)).1
  let movie2idx := (proc_col (df_train.map RawObs.movieId)).1
  (encode_col user2idx (df_val.map RawObs.userId),
   encode_col movie2idx (df_val.map RawObs.movieId),
   df_val.map RawObs.rating)

/-- A dense matrix (numpy 2-D float array) as a total function on indices;
the shape is tracked separately where the source reads `.shape`. -/
def Mat : Type := ℕ → ℕ → ℚ

/-- The all-zeros matrix, `np.zeros_like`. -/
def zerosMat : Mat := fun _ _ => 0

/-- An encoded rating record: one row of the encoded dataframe, with valid
(non-sentinel) user/movie indices. -/
structure Obs where
  userId : ℕ
  movieId : ℕ
  rating : ℚ

/-- Row dot product over `K` factors:
`np.sum(emb_user[u] * emb_movie[m], axis=1)` at one observation. -/
def dotK (K : ℕ) (u v : ℕ → ℚ) : ℚ :=
  ∑ j ∈ Finset.range K, u j * v j

/-- Prediction for one observation: `emb_user[user] ⬝ emb_movie[movie]`. -/
def predictOne (K : ℕ) (emb_user emb_movie : Mat) (o : Obs) : ℚ :=
  dotK K (emb_user o.userId) (emb_movie o.movieId)

/-- `cost`: mean squared error between ratings and dot-product predictions.
`np.mean((df["rating"] - df["Prediction"])**2)`. -/
def cost (K : ℕ) (df : List Obs) (emb_user emb_movie : Mat) : ℚ :=
  (df.map (fun o => (o.rating - predictOne K emb_user emb_movie o) ^ 2)).sum
    / (df.length : ℚ)

/-- Entry semantics of `scipy.sparse.csc_matrix((values, (rows, cols)),
shape=(nrows, ncols))`: triplets with the same coordinate are summed
(scipy's documented duplicate-entry behaviour for COO-style construction). -/
def csc_matrix (values : List ℚ) (rows cols : List ℕ)
    (nrows ncols : ℕ) : Mat :=
  fun r c =>
    (((values.zip (rows.zip cols)).filter
        (fun t => t.2.1 = r ∧ t.2.2 = c)).map (fun t => t.1)).sum

/-- `df2matrix`: sparse matrix built from the dataframe's rating column
keyed by `(userId, movieId)`. -/
def df2matrix (df : List Obs) (nrows ncols : ℕ) : Mat :=
  csc_matrix (df.map Obs.rating) (df.map Obs.userId) (df.map Obs.movieId)
    nrows ncols

/-- One step of `gradient`'s accumulation loop:
`grad_user[u] += -2 * diff * emb_movie[m]` and
`grad_movie[m] += -2 * diff * emb_user[u]` for one observation. -/
def gradStep (K : ℕ) (emb_user emb_movie : Mat) (acc : Mat × Mat)
    (o : Obs) : Mat × Mat :=
  let diff := o.rating - predictOne K emb_user emb_movie o
  (fun i j => if i = o.userId then
      acc.1 i j + (-2) * diff * emb_movie o.movieId j else acc.1 i j,
   fun i j => if i = o.movieId then
      acc.2 i j + (-2) * diff * emb_user o.userId j else acc.2 i j)

/-- `gradient`: accumulates per-entity contributions over all observations,
then divides both accumulators by the number of observations.  The sparse
argument `Y` is accepted (as in the source) but never used. -/
def gradient (K : ℕ) (df : List Obs) (Y : Mat) (emb_user emb_movie : Mat) :
    Mat × Mat :=
  let acc := df.foldl (gradStep K emb_user emb_movie) (zerosMat, zerosMat)
  (fun i j => acc.1 i j / (df.length : ℚ),
   fun i j => acc.2 i j / (df.length : ℚ))

/-- Optimizer state threaded through the training loop:
user embedding, movie embedding, user velocity, movie velocity. -/
structure GDState where
  eu : Mat
  em : Mat
  vu : Mat
  vm : Mat

/-- Body of the `gradient_descent` loop in source order: compute both
gradients from the current matrices, update the two velocities with
`momentum * v + (1 - momentum) * g` (momentum fixed at `0.9`), then update
the two embeddings with `emb -= learning_rate * velocity`. -/
def gdBody (K : ℕ) (df : List Obs) (Y : Mat) (learning_rate : ℚ)
    (s : GDState) : GDState :=
  let momentum : ℚ := 9 / 10
  let g := gradient K df Y s.eu s.em
  let velocity_user : Mat :=
    fun i j => momentum * s.vu i j + (1 - momentum) * g.1 i j
  let velocity_movie : Mat :=
    fun i j => momentum * s.vm i j + (1 - momentum) * g.2 i j
  let emb_user : Mat := fun i j => s.eu i j - learning_rate * velocity_user i j
  let emb_movie : Mat :=
    fun i j => s.em i j - learning_rate * velocity_movie i j
  ⟨emb_user, emb_movie, velocity_user, velocity_movie⟩

/-- `for i in range(iterations)`: iterate the loop body. -/
def gdLoop (K : ℕ) (df : List Obs) (Y : Mat) (learning_rate : ℚ) :
    ℕ → GDState → GDState
  | 0, s => s
  | n + 1, s => gdLoop K df Y learning_rate n (gdBody K df Y learning_rate s)

/-- `gradient_descent`: builds `Y` once, runs `iterations` momentum steps
from zero velocities, and returns the two embeddings (velocities are
dropped). `n_u`/`n_m` are `emb_user.shape[0]`/`emb_movie.shape[0]`. -/
def gradient_descent (K n_u n_m : ℕ) (df : List Obs) (emb_user emb_movie : Mat)
    (iterations : ℕ) (learning_rate : ℚ) : Mat × Mat :=
  let Y := df2matrix df n_u n_m
  let final := gdLoop K df Y learning_rate iterations
    ⟨emb_user, emb_movie, zerosMat, zerosMat⟩
  (final.eu, final.em)

theorem foldl_gradStep_fst (K : ℕ) (eu em : Mat) (df : List Obs) :
    ∀ (A B : Mat) (u j : ℕ),
    (df.foldl (gradStep K eu em) (A, B)).1 u j
      = A u j + (df.map (fun o => if o.userId = u then
          (-2) * (o.rating - predictOne K eu em o) * em o.movieId j
          else 0)).sum := by
  induction df with
  | nil => intro A B u j; simp
  | cons a l ih =>
    intro A B u j
    simp only [List.foldl_cons, List.map_cons, List.sum_cons]
    have hstep : gradStep K eu em (A, B) a
        = ((fun i j => if i = a.userId then
              A i j + (-2) * (a.rating - predictOne K eu em a)
                * em a.movieId j else A i j),
           (fun i j => if i = a.movieId then
              B i j + (-2) * (a.rating - predictOne K eu em a)
                * eu a.userId j else B i j)) := rfl
    rw [hstep, ih]
    by_cases h : u = a.userId
    · have h2 : a.userId = u := h.symm
      simp only [if_pos h, if_pos h2]
      ring
    · have h2 : ¬ (a.userId = u) := fun hh => h hh.symm
      simp only [if_neg h, if_neg h2]
      ring

theorem foldl_gradStep_snd (K : ℕ) (eu em : Mat) (df : List Obs) :
    ∀ (A B : Mat) (m j : ℕ),
    (df.foldl (gradStep K eu em) (A, B)).2 m j
      = B m j + (df.map (fun o => if o.movieId = m then
          (-2) * (o.rating - predictOne K eu em o) * eu o.userId j
          else 0)).sum := by
  induction df with
  | nil => intro A B m j; simp
  | cons a l ih =>
    intro A B m j
    simp only [List.foldl_cons, List.map_cons, List.sum_cons]
    have hstep : gradStep K eu em (A, B) a
        = ((fun i j => if i = a.userId then
              A i j + (-2) * (a.rating - predictOne K eu em a)
                * em a.movieId j else A i j),
           (fun i j => if i = a.movieId then
              B i j + (-2) * (a.rating - predictOne K eu em a)
                * eu a.userId j else B i j)) := rfl
    rw [hstep, ih]
    by_cases h : m = a.movieId
    · have h2 : a.movieId = m := h.symm
      simp only [if_pos h, if_pos h2]
      ring
    · have h2 : ¬ (a.movieId = m) := fun hh => h hh.symm
      simp only [if_neg h, if_neg h2]
      ring

/-- Closed form of `gradient`: each gradient row equals the sum of the
per-observation contributions to that entity divided by the observation
count, and rows of entities absent from the batch are zero. -/
def GradientAccumulates (K : ℕ) (df : List Obs) (Y eu em : Mat) : Prop :=
  (∀ u j, (gradient K df Y eu em).1 u j
      = (df.map (fun o => if o.userId = u then
          (-2) * (o.rating - predictOne K eu em o) * em o.movieId j
          else 0)).sum / (df.length : ℚ))
  ∧ (∀ m j, (gradient K df Y eu em).2 m j
      = (df.map (fun o => if o.movieId = m then
          (-2) * (o.rating - predictOne K eu em o) * eu o.userId j
          else 0)).sum / (df.length : ℚ))
  ∧ (∀ u, (∀ o ∈ df, o.userId ≠ u) →
      ∀ j, (gradient K df Y eu em).1 u j = 0)
  ∧ (∀ m, (∀ o ∈ df, o.movieId ≠ m) →
      ∀ j, (gradient K df Y eu em).2 m j = 0)

/-- Two observations sharing a user index: that user's `grad_user` row is
the average of the two single-observation gradient rows, i.e. contributions
sum rather than overwrite. -/
def GradientSharedUserSums (K : ℕ) (Y eu em : Mat) : Prop :=
  ∀ (o1 o2 : Obs), o1.userId = o2.userId → ∀ j,
    (gradient K [o1, o2] Y eu em).1 o1.userId j
      = ((gradient K [o1] Y eu em).1 o1.userId j
         + (gradient K [o2] Y eu em).1 o2.userId j) / 2

theorem gradient_fst_eq (K : ℕ) (df : List Obs) (Y eu em : Mat) (u j : ℕ) :
    (gradient K df Y eu em).1 u j
      = (df.map (fun o => if o.userId = u then
          (-2) * (o.rating - predictOne K eu em o) * em o.movieId j
          else 0)).sum / (df.length : ℚ) := by
  show (df.foldl (gradStep K eu em) (zerosMat, zerosMat)).1 u j
      / (df.length : ℚ) = _
  rw [foldl_gradStep_fst]
  simp [zerosMat]

theorem gradient_snd_eq (K : ℕ) (df : List Obs) (Y eu em : Mat) (m j : ℕ) :
    (gradient K df Y eu em).2 m j
      = (df.map (fun o => if o.movieId = m then
          (-2) * (o.rating - predictOne K eu em o) * eu o.userId j
          else 0)).sum / (df.length : ℚ) := by
  show (df.foldl (gradStep K eu em) (zerosMat, zerosMat)).2 m j
      / (df.length : ℚ) = _
  rw [foldl_gradStep_snd]
  simp [zerosMat]

/-- C1: `gradient` accumulates per-entity contributions by summation
(shared indices sum rather than overwrite), divides both accumulators by
the number of observations, and leaves an all-zero row for every entity
absent from the batch. -/
theorem gradient_accumulates_spec (K : ℕ) (df : List Obs) (Y eu em : Mat)
    (h : df ≠ []) :
    GradientAccumulates K df Y eu em ∧ GradientSharedUserSums K Y eu em := by
  clear h
  constructor
  · refine ⟨gradient_fst_eq K df Y eu em, gradient_snd_eq K df Y eu em,
      ?_, ?_⟩
    · intro u hu j
      rw [gradient_fst_eq]
      have hz : (df.map (fun o => if o.userId = u then
          (-2) * (o.rating - predictOne K eu em o) * em o.movieId j
          else 0)).sum = 0 := by
        apply List.sum_eq_zero
        intro x hx
        rcases List.mem_map.mp hx with ⟨o, ho, rfl⟩
        simp [hu o ho]
      rw [hz, zero_div]
    · intro m hm j
      rw [gradient_snd_eq]
      have hz : (df.map (fun o => if o.movieId = m then
          (-2) * (o.rating - predictOne K eu em o) * eu o.userId j
          else 0)).sum = 0 := by
        apply List.sum_eq_zero
        intro x hx
        rcases List.mem_map.mp hx with ⟨o, ho, rfl⟩
        simp [hm o ho]
      rw [hz, zero_div]
  · intro o1 o2 heq j
    rw [gradient_fst_eq, gradient_fst_eq, gradient_fst_eq]
    have h1 : o1.userId = o1.userId := rfl
    have h2 : o2.userId = o1.userId := heq.symm
    simp only [List.map_cons, List.map_nil, List.sum_cons, List.sum_nil,
      List.length_cons, List.length_nil, if_pos h1, if_pos h2, heq]
    push_cast
    ring

/-- Witness for C1 at a concrete two-observation batch sharing user 0. -/
theorem gradient_accumulates_spec_witness :
    ([⟨0, 0, 5⟩, ⟨0, 1, 3⟩] : List Obs) ≠ []
    ∧ (GradientAccumulates 1 [⟨0, 0, 5⟩, ⟨0, 1, 3⟩] zerosMat
        (fun _ _ => 1) (fun _ _ => 1)
       ∧ GradientSharedUserSums 1 zerosMat (fun _ _ => 1) (fun _ _ => 1)) :=
  ⟨by simp,
   gradient_accumulates_spec 1 [⟨0, 0, 5⟩, ⟨0, 1, 3⟩] zerosMat
     (fun _ _ => 1) (fun _ _ => 1) (by simp)⟩

/-- Spec-side optimizer state sequence (refinement target), following the
spec's words: initial state is the given factor matrices with zero velocity
accumulators; each transition computes both gradients from the same
pre-update pair of factor matrices, sets `velocity = 0.9·velocity +
0.1·gradient` for each matrix, then subtracts `learning_rate·velocity`
from each factor matrix.  Components: user embedding, movie embedding,
user velocity, movie velocity. -/
def specOptState (K n_u n_m : ℕ) (df : List Obs) (eu0 em0 : Mat) (lr : ℚ) :
    ℕ → Mat × Mat × Mat × Mat
  | 0 => (eu0, em0, zerosMat, zerosMat)
  | t + 1 =>
    let s := specOptState K n_u n_m df eu0 em0 lr t
    let g := gradient K df (df2matrix df n_u n_m) s.1 s.2.1
    ((fun i j => s.1 i j
        - lr * ((9 / 10) * s.2.2.1 i j + (1 / 10) * g.1 i j)),
     (fun i j => s.2.1 i j
        - lr * ((9 / 10) * s.2.2.2 i j + (1 / 10) * g.2 i j)),
     (fun i j => (9 / 10) * s.2.2.1 i j + (1 / 10) * g.1 i j),
     (fun i j => (9 / 10) * s.2.2.2 i j + (1 / 10) * g.2 i j))

theorem gdLoop_succ (K : ℕ) (df : List Obs) (Y : Mat) (lr : ℚ) :
    ∀ (n : ℕ) (s : GDState),
    gdLoop K df Y lr (n + 1) s = gdBody K df Y lr (gdLoop K df Y lr n s) := by
  intro n
  induction n with
  | zero => intro s; rfl
  | succ m ih =>
    intro s
    show gdLoop K df Y lr (m + 1) (gdBody K df Y lr s) = _
    rw [ih]
    rfl

theorem gdLoop_eq_specOpt (K n_u n_m : ℕ) (df : List Obs) (eu em : Mat)
    (lr : ℚ) : ∀ t : ℕ,
    (gdLoop K df (df2matrix df n_u n_m) lr t
        ⟨eu, em, zerosMat, zerosMat⟩).eu
      = (specOptState K n_u n_m df eu em lr t).1
    ∧ (gdLoop K df (df2matrix df n_u n_m) lr t
        ⟨eu, em, zerosMat, zerosMat⟩).em
      = (specOptState K n_u n_m df eu em lr t).2.1
    ∧ (gdLoop K df (df2matrix df n_u n_m) lr t
        ⟨eu, em, zerosMat, zerosMat⟩).vu
      = (specOptState K n_u n_m df eu em lr t).2.2.1
    ∧ (gdLoop K df (df2matrix df n_u n_m) lr t
        ⟨eu, em, zerosMat, zerosMat⟩).vm
      = (specOptState K n_u n_m df eu em lr t).2.2.2 := by
  intro t
  induction t with
  | zero => exact ⟨rfl, rfl, rfl, rfl⟩
  | succ t ih =>
    obtain ⟨h1, h2, h3, h4⟩ := ih
    rw [gdLoop_succ]
    simp only [specOptState, gdBody]
    refine ⟨?_, ?_, ?_, ?_⟩ <;>
    · funext i j
      simp only [h1, h2, h3, h4]
      norm_num

/-- C2: `gradient_descent` performs exactly `iterations` momentum
transitions (no early stopping) starting from zero velocities with momentum
`0.9`; each transition takes both gradients from the pre-update matrices,
forms `velocity = 0.9·velocity + 0.1·gradient`, subtracts
`learning_rate·velocity`, and the final state's two factor matrices are
returned without the velocities. -/
theorem gradient_descent_is_momentum_spec (K n_u n_m : ℕ) (df : List Obs)
    (emb_user emb_movie : Mat) (iterations : ℕ) (learning_rate : ℚ) :
    gradient_descent K n_u n_m df emb_user emb_movie iterations learning_rate
      = ((specOptState K n_u n_m df emb_user emb_movie learning_rate
            iterations).1,
         (specOptState K n_u n_m df emb_user emb_movie learning_rate
            iterations).2.1) := by
  obtain ⟨h1, h2, _, _⟩ :=
    gdLoop_eq_specOpt K n_u n_m df emb_user emb_movie learning_rate iterations
  show ((gdLoop K df (df2matrix df n_u n_m) learning_rate iterations
      ⟨emb_user, emb_movie, zerosMat, zerosMat⟩).eu,
    (gdLoop K df (df2matrix df n_u n_m) learning_rate iterations
      ⟨emb_user, emb_movie, zerosMat, zerosMat⟩).em) = _
  rw [h1, h2]

theorem csc_absent (values : List ℚ) (rows cols : List ℕ)
    (nrows ncols r c : ℕ) (h : (r, c) ∉ rows.zip cols) :
    csc_matrix values rows cols nrows ncols r c = 0 := by
  unfold csc_matrix
  have hfil : (values.zip (rows.zip cols)).filter
      (fun t => decide (t.2.1 = r ∧ t.2.2 = c)) = [] := by
    rw [List.filter_eq_nil_iff]
    intro t ht
    have h2 : t.2 ∈ rows.zip cols := (List.of_mem_zip ht).2
    simp only [decide_eq_true_eq, not_and]
    intro hr hc
    exact h (by rw [← hr, ← hc]; exact h2)
  rw [hfil]
  simp

theorem csc_cons (v : ℚ) (vs : List ℚ) (r c : ℕ) (rs cs : List ℕ)
    (n m x y : ℕ) :
    csc_matrix (v :: vs) (r :: rs) (c :: cs) n m x y
      = (if r = x ∧ c = y then v else 0) + csc_matrix vs rs cs n m x y := by
  unfold csc_matrix
  by_cases h : r = x ∧ c = y
  · simp [List.filter_cons, h]
  · simp [List.filter_cons, h]

theorem csc_present : ∀ (i : ℕ) (values : List ℚ) (rows cols : List ℕ)
    (nrows ncols : ℕ) (hi : i < rows.length) (hv : i < values.length)
    (hc : i < cols.length), (rows.zip cols).Nodup →
    csc_matrix values rows cols nrows ncols (rows.get ⟨i, hi⟩)
      (cols.get ⟨i, hc⟩) = values.get ⟨i, hv⟩ := by
  intro i
  induction i with
  | zero =>
    intro values rows cols nrows ncols hi hv hc hnd
    match values, rows, cols with
    | v :: vs, r :: rs, c :: cs =>
      have hnotin : (r, c) ∉ rs.zip cs := by
        rw [List.zip_cons_cons] at hnd
        exact (List.nodup_cons.mp hnd).1
      show csc_matrix (v :: vs) (r :: rs) (c :: cs) nrows ncols r c = v
      rw [csc_cons, csc_absent vs rs cs nrows ncols r c hnotin]
      simp
  | succ i ih =>
    intro values rows cols nrows ncols hi hv hc hnd
    match values, rows, cols with
    | v :: vs, r :: rs, c :: cs =>
      have hi' : i < rs.length := Nat.lt_of_succ_lt_succ hi
      have hv' : i < vs.length := Nat.lt_of_succ_lt_succ hv
      have hc' : i < cs.length := Nat.lt_of_succ_lt_succ hc
      have hnd' : (rs.zip cs).Nodup := by
        rw [List.zip_cons_cons] at hnd
        exact (List.nodup_cons.mp hnd).2
      have hmem : (rs.get ⟨i, hi'⟩, cs.get ⟨i, hc'⟩) ∈ rs.zip cs := by
        have hlen : i < (rs.zip cs).length := by
          rw [List.length_zip]
          exact lt_min hi' hc'
        have hg := List.get_mem (rs.zip cs) i hlen
        simpa [List.get_eq_getElem, List.getElem_zip] using hg
      have hne : ¬ (r = rs.get ⟨i, hi'⟩ ∧ c = cs.get ⟨i, hc'⟩) := by
        intro hcontra
        rw [List.zip_cons_cons] at hnd
        apply (List.nodup_cons.mp hnd).1
        rw [hcontra.1, hcontra.2]
        exact hmem
      show csc_matrix (v :: vs) (r :: rs) (c :: cs) nrows ncols
          (rs.get ⟨i, hi'⟩) (cs.get ⟨i, hc'⟩) = vs.get ⟨i, hv'⟩
      rw [csc_cons, if_neg hne, zero_add]
      exact ih vs rs cs nrows ncols hi' hv' hc' hnd'

/-- C3 counterexample: two triplets at the same coordinate.  scipy's
COO-style constructor sums duplicates, so the entry is `1 + 2 = 3`, not the
last-written value `2`. -/
theorem csc_matrix_not_last_write :
    csc_matrix [1, 2] [0, 0] [0, 0] 1 1 0 0 = 3 ∧ (3 : ℚ) ≠ 2 := by
  constructor
  · unfold csc_matrix
    norm_num
  · norm_num

/-- C3 amended: when all `(row, col)` coordinates are distinct, the sparse
matrix has entry `values[i]` at `(rows[i], cols[i])` and `0` at every
coordinate not listed; coordinates listed more than once receive the sum of
their values (duplicates accumulate, shown by the counterexample). -/
theorem csc_matrix_sums_spec (values : List ℚ) (rows cols : List ℕ)
    (nrows ncols : ℕ) (hnd : (rows.zip cols).Nodup) :
    (∀ i (hi : i < rows.length) (hv : i < values.length)
        (hc : i < cols.length),
      csc_matrix values rows cols nrows ncols (rows.get ⟨i, hi⟩)
        (cols.get ⟨i, hc⟩) = values.get ⟨i, hv⟩)
    ∧ ∀ r c, (r, c) ∉ rows.zip cols →
        csc_matrix values rows cols nrows ncols r c = 0 := by
  constructor
  · intro i hi hv hc
    exact csc_present i values rows cols nrows ncols hi hv hc hnd
  · intro r c hrc
    exact csc_absent values rows cols nrows ncols r c hrc

/-- Witness for the amended C3 statement at concrete distinct triplets. -/
theorem csc_matrix_sums_spec_witness :
    (([0, 1].zip [2, 3] : List (ℕ × ℕ)).Nodup)
    ∧ ((∀ i (hi : i < [0, 1].length) (hv : i < ([5, 7] : List ℚ).length)
          (hc : i < [2, 3].length),
        csc_matrix [5, 7] [0, 1] [2, 3] 4 4 ([0, 1].get ⟨i, hi⟩)
          ([2, 3].get ⟨i, hc⟩) = ([5, 7] : List ℚ).get ⟨i, hv⟩)
      ∧ ∀ r c, (r, c) ∉ [0, 1].zip [2, 3] →
          csc_matrix [5, 7] [0, 1] [2, 3] 4 4 r c = 0) :=
  ⟨by decide, csc_matrix_sums_spec [5, 7] [0, 1] [2, 3] 4 4 (by decide)⟩

/-- What applying a previously built encoding map does: the output is as
long as the input; position `j` holds the map's index of the `j`-th input
identifier, or the sentinel `-1` when that identifier is absent from the
map; and changing the input at one position never changes the output at
any other position. -/
def EncodeColSpec {α : Type} [DecidableEq α] (m : List (α × ℕ))
    (col : List α) : Prop :=
  (encode_col m col).length = col.length
  ∧ (∀ j, j < col.length →
      (encode_col m col).get? j = (col.get? j).map (fun x =>
        match lookupIdx m x with
        | some i => (i : ℤ)
        | none => -1))
  ∧ (∀ p y q, q ≠ p →
      (encode_col m (col.set p y)).get? q = (encode_col m col).get? q)

theorem encode_col_map_eq {α : Type} [DecidableEq α] (m : List (α × ℕ))
    (col : List α) :
    encode_col m col = col.map (fun x =>
      match lookupIdx m x with
      | some i => (i : ℤ)
      | none => -1) := by
  unfold encode_col fillna seriesMap
  rw [List.map_map]
  rfl

/-- C5: applying a built encoding map sends identifiers present in the map
to their index and absent identifiers to the sentinel `-1`, never fails,
and the encoding at each position depends only on that position's
identifier. -/
theorem encode_col_applies {α : Type} [DecidableEq α] (m : List (α × ℕ))
    (col : List α) : EncodeColSpec m col := by
  refine ⟨?_, ?_, ?_⟩
  · rw [encode_col_map_eq]
    simp
  · intro j _
    rw [encode_col_map_eq, List.get?_eq_getElem?, List.getElem?_map,
      List.get?_eq_getElem?]
  · intro p y q hq
    rw [encode_col_map_eq, encode_col_map_eq, List.get?_eq_getElem?,
      List.getElem?_map, List.get?_eq_getElem?, List.getElem?_map,
      List.getElem?_set_ne (fun hh => hq hh.symm)]

/-- Witness for C5 on a concrete map and a column with an unseen
identifier. -/
theorem encode_col_applies_witness :
    EncodeColSpec [(10, 0), (20, 1)] [10, 99, 20] :=
  encode_col_applies [(10, 0), (20, 1)] [10, 99, 20]

theorem posOf_nil {α : Type} [DecidableEq α] (x : α) :
    posOf ([] : List α) x = 0 := rfl

theorem posOf_cons {α : Type} [DecidableEq α] (a : α) (as : List α) (x : α) :
    posOf (a :: as) x = if x = a then 0 else posOf as x + 1 := rfl

theorem mem_iff_posOf_lt {α : Type} [DecidableEq α] (l : List α) (x : α) :
    x ∈ l ↔ posOf l x < l.length := by
  induction l with
  | nil => simp [posOf_nil]
  | cons a as ih =>
    by_cases h : x = a
    · subst h; simp [posOf_cons]
    · rw [posOf_cons, if_neg h]
      simp only [List.mem_cons, h, false_or, List.length_cons]
      rw [ih]
      omega

theorem get?_posOf {α : Type} [DecidableEq α] (l : List α) (x : α)
    (h : x ∈ l) : l.get? (posOf l x) = some x := by
  induction l with
  | nil => simp at h
  | cons a as ih =>
    by_cases hxa : x = a
    · subst hxa; simp [posOf_cons]
    · have hx : x ∈ as := by
        rcases List.mem_cons.mp h with h1 | h1
        · exact absurd h1 hxa
        · exact h1
      simp only [posOf_cons, if_neg hxa]
      rw [List.get?_cons_succ]
      exact ih hx

theorem posOf_get?_nodup {α : Type} [DecidableEq α] :
    ∀ (l : List α), l.Nodup → ∀ (i : ℕ) (x : α), l.get? i = some x →
    posOf l x = i := by
  intro l
  induction l with
  | nil => intro _ i x h; simp at h
  | cons a as ih =>
    intro hnd i x h
    match i with
    | 0 =>
      simp only [List.get?_cons_zero, Option.some_inj] at h
      subst h
      simp [posOf_cons]
    | i + 1 =>
      rw [List.get?_cons_succ] at h
      have hx : x ∈ as := List.get?_mem h
      have hxa : x ≠ a := by
        intro hh
        subst hh
        exact (List.nodup_cons.mp hnd).1 hx
      simp only [posOf_cons, if_neg hxa]
      rw [ih (List.nodup_cons.mp hnd).2 i x h]

theorem posOf_filter_lt {α : Type} [DecidableEq α] (p : α → Bool) :
    ∀ (as : List α) (x y : α), x ∈ as.filter p → y ∈ as.filter p →
    posOf (as.filter p) x < posOf (as.filter p) y →
    posOf as x < posOf as y := by
  intro as
  induction as with
  | nil => intro x y hx _ _; simp at hx
  | cons b bs ih =>
    intro x y hx hy hlt
    by_cases hpb : p b = true
    · rw [List.filter_cons_of_pos hpb] at hx hy hlt
      by_cases hxb : x = b
      · have hyb : y ≠ b := by
          intro h
          rw [hxb, h] at hlt
          exact lt_irrefl _ hlt
        rw [hxb, posOf_cons, if_pos rfl, posOf_cons, if_neg hyb]
        omega
      · have hyb : y ≠ b := by
          intro h
          subst h
          rw [posOf_cons, if_neg hxb, posOf_cons, if_pos rfl] at hlt
          omega
        rw [posOf_cons, if_neg hxb, posOf_cons, if_neg hyb] at hlt ⊢
        have hx' : x ∈ bs.filter p := by
          rcases List.mem_cons.mp hx with h1 | h1
          · exact absurd h1 hxb
          · exact h1
        have hy' : y ∈ bs.filter p := by
          rcases List.mem_cons.mp hy with h1 | h1
          · exact absurd h1 hyb
          · exact h1
        have := ih x y hx' hy' (by omega)
        omega
    · have hpb' : ¬ p b = true := hpb
      rw [List.filter_cons_of_neg (by simpa using hpb')] at hx hy hlt
      have hxb : x ≠ b := by
        intro h
        subst h
        exact hpb' (List.mem_filter.mp hx).2
      have hyb : y ≠ b := by
        intro h
        subst h
        exact hpb' (List.mem_filter.mp hy).2
      rw [posOf_cons, if_neg hxb, posOf_cons, if_neg hyb]
      have := ih x y hx hy hlt
      omega

theorem mem_uniqList {α : Type} [DecidableEq α] (l : List α) (x : α) :
    x ∈ uniqList l ↔ x ∈ l := by
  induction l using uniqList.induct with
  | case1 => simp [uniqList]
  | case2 a as ih =>
    rw [uniqList]
    simp only [List.mem_cons, ih, List.mem_filter]
    constructor
    · rintro (rfl | ⟨h1, _⟩)
      · exact Or.inl rfl
      · exact Or.inr h1
    · rintro (rfl | h1)
      · exact Or.inl rfl
      · by_cases hxa : x = a
        · exact Or.inl hxa
        · exact Or.inr ⟨h1, by simp [hxa]⟩

theorem nodup_uniqList {α : Type} [DecidableEq α] (l : List α) :
    (uniqList l).Nodup := by
  induction l using uniqList.induct with
  | case1 => simp [uniqList]
  | case2 a as ih =>
    rw [uniqList]
    refine List.nodup_cons.mpr ⟨?_, ih⟩
    intro hmem
    have h1 := (mem_uniqList _ _).mp hmem
    have h2 := List.mem_filter.mp h1
    simp at h2

theorem pairwise_posOf_uniqList {α : Type} [DecidableEq α] (l : List α) :
    (uniqList l).Pairwise (fun x y => posOf l x < posOf l y) := by
  induction l using uniqList.induct with
  | case1 => simp [uniqList]
  | case2 a as ih =>
    rw [uniqList]
    refine List.pairwise_cons.mpr ⟨?_, ?_⟩
    · intro y hy
      have hyf := (mem_uniqList _ _).mp hy
      have hya : y ≠ a := by simpa using (List.mem_filter.mp hyf).2
      simp [posOf_cons, hya]
    · refine List.Pairwise.imp_of_mem ?_ ih
      intro x y hx hy hlt
      have hxf := (mem_uniqList _ _).mp hx
      have hyf := (mem_uniqList _ _).mp hy
      have hxa : x ≠ a := by simpa using (List.mem_filter.mp hxf).2
      have hya : y ≠ a := by simpa using (List.mem_filter.mp hyf).2
      rw [posOf_cons, if_neg hxa, posOf_cons, if_neg hya]
      have := posOf_filter_lt (fun y => y ≠ a) as x y hxf hyf hlt
      omega

theorem lookupIdx_enumFrom_mem {α : Type} [DecidableEq α] :
    ∀ (l : List α) (k : ℕ) (x : α), x ∈ l →
    lookupIdx (enumFrom k l) x = some (k + posOf l x) := by
  intro l
  induction l with
  | nil => intro k x h; simp at h
  | cons a as ih =>
    intro k x h
    by_cases hxa : x = a
    · subst hxa
      simp [enumFrom, lookupIdx, posOf_cons]
    · have hx : x ∈ as := by
        rcases List.mem_cons.mp h with h1 | h1
        · exact absurd h1 hxa
        · exact h1
      simp only [enumFrom, lookupIdx, if_neg hxa]
      rw [ih (k + 1) x hx]
      simp only [posOf_cons, if_neg hxa]
      congr 1
      omega

theorem lookupIdx_enumFrom_not_mem {α : Type} [DecidableEq α] :
    ∀ (l : List α) (k : ℕ) (x : α), x ∉ l →
    lookupIdx (enumFrom k l) x = none := by
  intro l
  induction l with
  | nil => intro k x _; rfl
  | cons a as ih =>
    intro k x h
    have hxa : x ≠ a := fun hh => h (hh ▸ List.mem_cons_self a as)
    simp only [enumFrom, lookupIdx, if_neg hxa]
    exact ih (k + 1) x (fun hh => h (List.mem_cons_of_mem a hh))

theorem lookup_proc_col_mem {α : Type} [DecidableEq α] (col : List α)
    (x : α) (h : x ∈ col) :
    lookupIdx (proc_col col).1 x = some (posOf (uniqList col) x) := by
  show lookupIdx (enumFrom 0 (uniqList col)) x = _
  rw [lookupIdx_enumFrom_mem (uniqList col) 0 x ((mem_uniqList col x).mpr h)]
  rw [zero_add]

theorem lookup_proc_col_not_mem {α : Type} [DecidableEq α] (col : List α)
    (x : α) (h : x ∉ col) : lookupIdx (proc_col col).1 x = none := by
  show lookupIdx (enumFrom 0 (uniqList col)) x = none
  exact lookupIdx_enumFrom_not_mem (uniqList col) 0 x
    (fun hh => h ((mem_uniqList col x).mp hh))

theorem proc_col_count {α : Type} [DecidableEq α] (col : List α) :
    (proc_col col).2.2 = col.toFinset.card := by
  show (uniqList col).length = col.toFinset.card
  have h1 : (uniqList col).toFinset = col.toFinset := by
    ext z
    simp [List.mem_toFinset, mem_uniqList]
  calc (uniqList col).length
      = (uniqList col).toFinset.card :=
        (List.toFinset_card_of_nodup (nodup_uniqList col)).symm
    _ = col.toFinset.card := by rw [h1]

theorem get_uniqList_posOf {α : Type} [DecidableEq α] (col : List α) (a : α)
    (ha : a ∈ uniqList col) (hpa : posOf (uniqList col) a
      < (uniqList col).length) :
    (uniqList col).get ⟨posOf (uniqList col) a, hpa⟩ = a := by
  have h := get?_posOf (uniqList col) a ha
  rw [List.get?_eq_get hpa] at h
  exact Option.some_inj.mp h

theorem posOf_uniqList_lt_iff {α : Type} [DecidableEq α] (col : List α)
    (x y : α) (hx : x ∈ col) (hy : y ∈ col) :
    posOf (uniqList col) x < posOf (uniqList col) y
      ↔ posOf col x < posOf col y := by
  have hxu : x ∈ uniqList col := (mem_uniqList col x).mpr hx
  have hyu : y ∈ uniqList col := (mem_uniqList col y).mpr hy
  have key : ∀ a b : α, a ∈ uniqList col → b ∈ uniqList col →
      posOf (uniqList col) a < posOf (uniqList col) b →
      posOf col a < posOf col b := by
    intro a b ha hb hab
    have hpa := (mem_iff_posOf_lt (uniqList col) a).mp ha
    have hpb := (mem_iff_posOf_lt (uniqList col) b).mp hb
    have hpw := pairwise_posOf_uniqList col
    rw [List.pairwise_iff_get] at hpw
    have hr := hpw ⟨_, hpa⟩ ⟨_, hpb⟩ hab
    rwa [get_uniqList_posOf col a ha hpa, get_uniqList_posOf col b hb hpb]
      at hr
  constructor
  · exact key x y hxu hyu
  · intro hcol
    rcases lt_trichotomy (posOf (uniqList col) x) (posOf (uniqList col) y)
      with h | h | h
    · exact h
    · exfalso
      have hxy : x = y := by
        have h1 := get?_posOf (uniqList col) x hxu
        have h2 := get?_posOf (uniqList col) y hyu
        rw [h] at h1
        exact Option.some_inj.mp (h1.symm.trans h2)
      rw [hxy] at hcol
      exact lt_irrefl _ hcol
    · exfalso
      have := key y x hyu hxu h
      omega

/-- What building the encoding guarantees: the count is the number of
distinct identifiers; the encoded column is positionally aligned with the
input through the map; the map covers exactly the input's identifiers;
each index below the count is assigned to exactly one identifier; and
indices are ordered by first appearance in the input. -/
def ProcColSpec {α : Type} [DecidableEq α] (col : List α) : Prop :=
  ((proc_col col).2.2 = col.toFinset.card)
  ∧ ((proc_col col).2.1.length = col.length)
  ∧ (∀ j, j < col.length →
      (proc_col col).2.1.get? j
        = (col.get? j).bind (lookupIdx (proc_col col).1))
  ∧ (∀ x, (∃ i, lookupIdx (proc_col col).1 x = some i) ↔ x ∈ col)
  ∧ (∀ i, i < (proc_col col).2.2 →
      ∃! x, lookupIdx (proc_col col).1 x = some i)
  ∧ (∀ x y i j, lookupIdx (proc_col col).1 x = some i →
      lookupIdx (proc_col col).1 y = some j →
      (i < j ↔ posOf col x < posOf col y))

/-- C6: `proc_col` maps each distinct identifier to a dense index in
`[0, n)` in order of first appearance, encodes the column positionally,
and returns `n` = number of distinct identifiers, every index being
assigned to exactly one identifier. -/
theorem proc_col_spec {α : Type} [DecidableEq α] (col : List α) :
    ProcColSpec col := by
  refine ⟨proc_col_count col, by simp [proc_col], ?_, ?_, ?_, ?_⟩
  · intro j hj
    show (col.map
        (fun x => (lookupIdx (enumFrom 0 (uniqList col)) x).getD 0)).get? j
      = _
    rw [List.get?_map, List.get?_eq_get hj]
    have hmem := List.get_mem col j hj
    have hl := lookup_proc_col_mem col (col.get ⟨j, hj⟩) hmem
    have hl' : lookupIdx (enumFrom 0 (uniqList col)) (col.get ⟨j, hj⟩)
        = some (posOf (uniqList col) (col.get ⟨j, hj⟩)) := hl
    simp only [Option.map_some', Option.some_bind, hl, hl']
    rfl
  · intro x
    constructor
    · rintro ⟨i, hi⟩
      by_contra hnc
      rw [lookup_proc_col_not_mem col x hnc] at hi
      exact Option.noConfusion hi
    · intro hx
      exact ⟨posOf (uniqList col) x, lookup_proc_col_mem col x hx⟩
  · intro i hi
    have hi' : i < (uniqList col).length := hi
    obtain ⟨x, hx⟩ : ∃ x, (uniqList col).get? i = some x :=
      ⟨_, List.get?_eq_get hi'⟩
    have hxm : x ∈ uniqList col := List.get?_mem hx
    have hxcol : x ∈ col := (mem_uniqList col x).mp hxm
    refine ⟨x, ?_, ?_⟩
    · show lookupIdx (proc_col col).1 x = some i
      rw [lookup_proc_col_mem col x hxcol,
        posOf_get?_nodup (uniqList col) (nodup_uniqList col) i x hx]
    · intro y hyy
      have hy : lookupIdx (proc_col col).1 y = some i := hyy
      have hycol : y ∈ col := by
        by_contra hnc
        rw [lookup_proc_col_not_mem col y hnc] at hy
        exact Option.noConfusion hy
      rw [lookup_proc_col_mem col y hycol] at hy
      have hpy : posOf (uniqList col) y = i := Option.some_inj.mp hy
      have h2 := get?_posOf (uniqList col) y ((mem_uniqList col y).mpr hycol)
      rw [hpy] at h2
      exact Option.some_inj.mp (h2.symm.trans hx)
  · intro x y i j hxi hyj
    have hxcol : x ∈ col := by
      by_contra hnc
      rw [lookup_proc_col_not_mem col x hnc] at hxi
      exact Option.noConfusion hxi
    have hycol : y ∈ col := by
      by_contra hnc
      rw [lookup_proc_col_not_mem col y hnc] at hyj
      exact Option.noConfusion hyj
    rw [lookup_proc_col_mem col x hxcol] at hxi
    rw [lookup_proc_col_mem col y hycol] at hyj
    rw [← Option.some_inj.mp hxi, ← Option.some_inj.mp hyj]
    exact posOf_uniqList_lt_iff col x y hxcol hycol

/-- Witness for C6 on a concrete column with a repeated identifier. -/
theorem proc_col_spec_witness : ProcColSpec [5, 7, 5, 2] :=
  proc_col_spec ([5, 7, 5, 2] : List ℕ)

/-- C7: applying the map built by `proc_col` back to the same column
reproduces the encoded column (as integers, with no `-1` sentinel), and
the count equals the number of distinct identifiers. -/
theorem encode_roundtrip {α : Type} [DecidableEq α] (col : List α) :
    (encode_col (proc_col col).1 col
      = (proc_col col).2.1.map (fun i : ℕ => (i : ℤ)))
    ∧ (∀ z ∈ encode_col (proc_col col).1 col, 0 ≤ z)
    ∧ ((proc_col col).2.2 = col.toFinset.card) := by
  have hmap : encode_col (proc_col col).1 col
      = col.map (fun x => ((posOf (uniqList col) x : ℕ) : ℤ)) := by
    rw [encode_col_map_eq]
    apply List.map_congr_left
    intro a ha
    rw [lookup_proc_col_mem col a ha]
  have henc : (proc_col col).2.1
      = col.map (fun x => posOf (uniqList col) x) := by
    show col.map
        (fun x => (lookupIdx (enumFrom 0 (uniqList col)) x).getD 0) = _
    apply List.map_congr_left
    intro a ha
    have hl : lookupIdx (enumFrom 0 (uniqList col)) a
        = some (posOf (uniqList col) a) := lookup_proc_col_mem col a ha
    rw [hl]
    rfl
  refine ⟨?_, ?_, proc_col_count col⟩
  · rw [hmap, henc]
    exact List.comp_map (fun i => ((i : ℕ) : ℤ))
      (fun x => posOf (uniqList col) x) col
  · intro z hz
    rw [hmap] at hz
    rcases List.mem_map.mp hz with ⟨a, _, rfl⟩
    exact Int.natCast_nonneg _

/-- Witness for C7 on a concrete column with a repeated identifier. -/
theorem encode_roundtrip_witness :
    (encode_col (proc_col [3, 3, 8]).1 [3, 3, 8]
      = (proc_col ([3, 3, 8] : List ℕ)).2.1.map (fun i : ℕ => (i : ℤ)))
    ∧ (∀ z ∈ encode_col (proc_col [3, 3, 8]).1 [3, 3, 8], 0 ≤ z)
    ∧ ((proc_col ([3, 3, 8] : List ℕ)).2.2 = [3, 3, 8].toFinset.card) :=
  encode_roundtrip ([3, 3, 8] : List ℕ)

/-- A float64 value: `some q` is the finite value `q`; `none` stands for
the non-finite values (NaN/Inf) that numpy produces instead of raising,
e.g. `0.0/0.0` emits a warning and yields NaN. -/
def QN : Type := Option ℚ

def qnAdd : QN → QN → QN
  | some a, some b => some (a + b)
  | _, _ => none

def qnSub : QN → QN → QN
  | some a, some b => some (a - b)
  | _, _ => none

def qnMul : QN → QN → QN
  | some a, some b => some (a * b)
  | _, _ => none

def qnDiv : QN → QN → QN
  | some a, some b => if b = 0 then none else some (a / b)
  | _, _ => none

/-- Dense matrix of float values for the exception-aware model. -/
def MatN : Type := ℕ → ℕ → QN

/-- numpy integer indexing into axis 0 of length `n`: indices in `[0, n)`
are taken as-is, indices in `[-n, 0)` wrap around to `n + i` (so `-1`
addresses the LAST row, silently), anything else raises `IndexError`.
Used by both reads (`emb[u]`) and in-place writes (`grad[u] += ...`). -/
def npIdx (n : ℕ) (i : ℤ) : Except String ℕ :=
  if 0 ≤ i ∧ i < (n : ℤ) then .ok i.toNat
  else if -(n : ℤ) ≤ i ∧ i < 0 then .ok ((n : ℤ) + i).toNat
  else .error "IndexError: index out of bounds for axis 0"

/-- An encoded rating record whose indices may be invalid (e.g. the `-1`
sentinel left by `encode_new_data` for unseen identifiers). -/
structure ObsZ where
  userId : ℤ
  movieId : ℤ
  rating : ℚ

/-- `List.mapM` over `Except`, written out so that it unfolds by equations:
stops at the first error, in iteration order. -/
def mapME {β γ : Type} (f : β → Except String γ) :
    List β → Except String (List γ)
  | [] => .ok []
  | b :: bs =>
    match f b with
    | .error e => .error e
    | .ok c =>
      match mapME f bs with
      | .error e => .error e
      | .ok cs => .ok (c :: cs)

/-- Left fold over `Except`, stopping at the first error. -/
def foldlME {σ β : Type} (f : σ → β → Except String σ) :
    σ → List β → Except String σ
  | s, [] => .ok s
  | s, b :: bs =>
    match f s b with
    | .error e => .error e
    | .ok s2 => foldlME f s2 bs

/-- Row dot product over `K` factors in the float model. -/
def dotKN (K : ℕ) (u v : ℕ → QN) : QN :=
  (List.range K).foldl (fun acc j => qnAdd acc (qnMul (u j) (v j))) (some 0)

/-- One prediction `np.sum(emb_user[u] * emb_movie[m], axis=1)` with numpy
indexing semantics for the two row reads (user read happens first). -/
def predictE (K n_u n_m : ℕ) (eu em : MatN) (o : ObsZ) : Except String QN :=
  match npIdx n_u o.userId, npIdx n_m o.movieId with
  | .error e, _ => .error e
  | .ok _, .error e => .error e
  | .ok u, .ok m => .ok (dotKN K (eu u) (em m))

/-- `cost` with numpy indexing and float semantics: mean squared error;
the mean of an empty batch is `0/0` = NaN (no exception). -/
def costE (K n_u n_m : ℕ) (df : List ObsZ) (eu em : MatN) :
    Except String QN :=
  match mapME (predictE K n_u n_m eu em) df with
  | .error e => .error e
  | .ok preds =>
    .ok (qnDiv
      (((df.zip preds).map (fun op =>
          qnMul (qnSub (some op.1.rating) op.2)
            (qnSub (some op.1.rating) op.2))).foldl qnAdd (some 0))
      (some (df.length : ℚ)))

/-- In-place row update of an accumulator matrix. -/
def updRowN (M : MatN) (r : ℕ) (f : ℕ → QN) : MatN :=
  fun i j => if i = r then f j else M i j

/-- `gradient` with numpy indexing and float semantics: vectorized
predictions first, then the per-observation accumulation loop (row reads
and writes both use wrapping integer indexing), then division by the
number of observations (`0/0` = NaN on an empty batch). -/
def gradientE (K n_u n_m : ℕ) (df : List ObsZ) (Y : Mat) (eu em : MatN) :
    Except String (MatN × MatN) :=
  match mapME (predictE K n_u n_m eu em) df with
  | .error e => .error e
  | .ok preds =>
    let diffs := (df.zip preds).map
      (fun op => qnSub (some op.1.rating) op.2)
    match foldlME (fun (acc : MatN × MatN) (od : ObsZ × QN) =>
        match npIdx n_u od.1.userId, npIdx n_m od.1.movieId with
        | .error e, _ => .error e
        | .ok _, .error e => .error e
        | .ok u, .ok m => .ok
            (updRowN acc.1 u (fun j => qnAdd (acc.1 u j)
               (qnMul (qnMul (some (-2)) od.2) (em m j))),
             updRowN acc.2 m (fun j => qnAdd (acc.2 m j)
               (qnMul (qnMul (some (-2)) od.2) (eu u j)))))
      ((fun _ _ => some 0, fun _ _ => some 0) : MatN × MatN)
      (df.zip diffs) with
    | .error e => .error e
    | .ok acc => .ok
        ((fun i j => qnDiv (acc.1 i j) (some (df.length : ℚ))),
         (fun i j => qnDiv (acc.2 i j) (some (df.length : ℚ))))

/-- scipy's triplet bounds check in `df2matrix`: indices outside
`[0, dim)` (including negatives) raise `ValueError`. -/
def df2matrixE (df : List ObsZ) (nrows ncols : ℕ) : Except String Mat :=
  match mapME (fun o : ObsZ =>
      if 0 ≤ o.userId ∧ o.userId < (nrows : ℤ) then .ok o.userId.toNat
      else .error "ValueError: row index out of bounds") df with
  | .error e => .error e
  | .ok rs =>
    match mapME (fun o : ObsZ =>
        if 0 ≤ o.movieId ∧ o.movieId < (ncols : ℤ) then .ok o.movieId.toNat
        else .error "ValueError: column index out of bounds") df with
    | .error e => .error e
    | .ok cs => .ok (csc_matrix (df.map ObsZ.rating) rs cs nrows ncols)

/-- One `gradient_descent` loop iteration in the float model. -/
def gdBodyE (K n_u n_m : ℕ) (df : List ObsZ) (Y : Mat) (lr : ℚ)
    (s : MatN × MatN × MatN × MatN) :
    Except String (MatN × MatN × MatN × MatN) :=
  match gradientE K n_u n_m df Y s.1 s.2.1 with
  | .error e => .error e
  | .ok g =>
    let momentum : ℚ := 9 / 10
    let vu : MatN := fun i j => qnAdd (qnMul (some momentum) (s.2.2.1 i j))
        (qnMul (some (1 - momentum)) (g.1 i j))
    let vm : MatN := fun i j => qnAdd (qnMul (some momentum) (s.2.2.2 i j))
        (qnMul (some (1 - momentum)) (g.2 i j))
    .ok ((fun i j => qnSub (s.1 i j) (qnMul (some lr) (vu i j))),
         (fun i j => qnSub (s.2.1 i j) (qnMul (some lr) (vm i j))),
         vu, vm)

def gdLoopE (K n_u n_m : ℕ) (df : List ObsZ) (Y : Mat) (lr : ℚ) :
    ℕ → MatN × MatN × MatN × MatN →
    Except String (MatN × MatN × MatN × MatN)
  | 0, s => .ok s
  | n + 1, s =>
    match gdBodyE K n_u n_m df Y lr s with
    | .error e => .error e
    | .ok s2 => gdLoopE K n_u n_m df Y lr n s2

/-- `gradient_descent` in the float model: builds `Y`, then iterates; no
emptiness check anywhere on the path. -/
def gradient_descentE (K n_u n_m : ℕ) (df : List ObsZ) (eu em : MatN)
    (iterations : ℕ) (lr : ℚ) : Except String (MatN × MatN) :=
  match df2matrixE df n_u n_m with
  | .error e => .error e
  | .ok Y =>
    match gdLoopE K n_u n_m df Y lr iterations
        (eu, em, (fun _ _ => some 0), (fun _ _ => some 0)) with
    | .error e => .error e
    | .ok final => .ok (final.1, final.2.1)

/-- Concrete 2-row user embedding for the bounds-behaviour checks:
row 0 is `10`, row 1 (the last row) is `3`. -/
def euC : MatN := fun i _ => if i = 0 then some 10 else some 3

/-- Concrete 1-row movie embedding: constant `1`. -/
def emC : MatN := fun _ _ => some 1

/-- Concrete all-ones embedding. -/
def onesN : MatN := fun _ _ => some 1

/-- C4 (code behaviour at the failing input): with 2 user rows, the
sentinel index `-1` is accepted by numpy integer indexing and silently
addresses the LAST user row — `cost` returns a value computed from row 1
(`(5 - 3·1)² = 4`), and `gradient` succeeds, writing `-4` into
`grad_user` row 1 and `-12` into `grad_movie` row 0; only an index outside
`[-n, n)` (here `2`) raises `IndexError`.  No bounds-check error is
raised for the sentinel, contradicting the fail-loudly requirement. -/
theorem sentinel_not_bounds_checked :
    (costE 1 2 1 [⟨-1, 0, 5⟩] euC emC = .ok (some 4))
    ∧ (match gradientE 1 2 1 [⟨-1, 0, 5⟩] zerosMat euC emC with
       | .ok g => g.1 0 0 = some 0 ∧ g.1 1 0 = some (-4)
           ∧ g.2 0 0 = some (-12)
       | .error _ => False)
    ∧ (costE 1 2 1 [⟨2, 0, 5⟩] euC emC
        = .error "IndexError: index out of bounds for axis 0") := by
  refine ⟨?_, ?_, ?_⟩
  · norm_num [costE, mapME, predictE, npIdx, dotKN, qnAdd, qnSub, qnMul,
      qnDiv, euC, emC, List.range_succ]
  · norm_num [gradientE, mapME, foldlME, predictE, npIdx, dotKN, updRowN,
      qnAdd, qnSub, qnMul, qnDiv, euC, emC, List.range_succ]
  · norm_num [costE, mapME, predictE, npIdx]

/-- C9 (code behaviour on an empty training set): neither `gradient` nor
`gradient_descent` refuses an empty batch; the division by
`len(df) = 0` silently produces NaN gradients (`0/0`), which after one
iteration poison the returned embeddings — no configuration error is
reported. -/
theorem empty_training_no_refusal :
    (match gradientE 1 1 1 [] zerosMat onesN onesN with
     | .ok g => g.1 0 0 = none ∧ g.2 0 0 = none
     | .error _ => False)
    ∧ (match gradient_descentE 1 1 1 [] onesN onesN 1 (1 / 100) with
       | .ok p => p.1 0 0 = none ∧ p.2 0 0 = none
       | .error _ => False) := by
  constructor
  · norm_num [gradientE, mapME, foldlME, qnAdd, qnSub, qnMul, qnDiv]
  · norm_num [gradient_descentE, df2matrixE, gdLoopE, gdBodyE, gradientE,
      mapME, foldlME, qnAdd, qnSub, qnMul, qnDiv, onesN]

/-- Heap of numpy array objects: a reference (object identity) is an
index into the store of matrices. -/
def Store : Type := ℕ → Mat

/-- Write the matrix held behind reference `r`. -/
def updStore (st : Store) (r : ℕ) (M : Mat) : Store :=
  fun q => if q = r then M else st q

/-- One `gradient_descent` loop iteration on the heap: read both
embeddings through their references, compute gradients and velocities,
then perform the two in-place `-=` writes (`emb_user` first, then
`emb_movie`), each mutating the array behind its reference. -/
def gdHeapStep (K : ℕ) (df : List Obs) (Y : Mat) (lr : ℚ) (ru rm : ℕ)
    (s : Store × Mat × Mat) : Store × Mat × Mat :=
  let eu := s.1 ru
  let em := s.1 rm
  let g := gradient K df Y eu em
  let momentum : ℚ := 9 / 10
  let vu : Mat := fun i j => momentum * s.2.1 i j + (1 - momentum) * g.1 i j
  let vm : Mat := fun i j => momentum * s.2.2 i j + (1 - momentum) * g.2 i j
  let st1 := updStore s.1 ru (fun i j => s.1 ru i j - lr * vu i j)
  let st2 := updStore st1 rm (fun i j => st1 rm i j - lr * vm i j)
  (st2, vu, vm)

def gdHeapLoop (K : ℕ) (df : List Obs) (Y : Mat) (lr : ℚ) (ru rm : ℕ) :
    ℕ → Store × Mat × Mat → Store × Mat × Mat
  | 0, s => s
  | n + 1, s =>
    gdHeapLoop K df Y lr ru rm n (gdHeapStep K df Y lr ru rm s)

/-- `gradient_descent` on the heap: receives the two embeddings as
references into the store, iterates with in-place updates, and returns the
final heap together with the references it returns to the caller — the
very objects it was handed. -/
def gradient_descent_heap (K n_u n_m : ℕ) (df : List Obs) (st : Store)
    (ru rm : ℕ) (iterations : ℕ) (lr : ℚ) : Store × ℕ × ℕ :=
  let Y := df2matrix df n_u n_m
  let final := gdHeapLoop K df Y lr ru rm iterations
    (st, zerosMat, zerosMat)
  (final.1, ru, rm)

theorem gdHeapLoop_eq (K : ℕ) (df : List Obs) (Y : Mat) (lr : ℚ)
    (ru rm : ℕ) (hne : ru ≠ rm) : ∀ (n : ℕ) (st : Store) (vu vm : Mat),
    ((gdHeapLoop K df Y lr ru rm n (st, vu, vm)).1 ru
        = (gdLoop K df Y lr n ⟨st ru, st rm, vu, vm⟩).eu)
    ∧ ((gdHeapLoop K df Y lr ru rm n (st, vu, vm)).1 rm
        = (gdLoop K df Y lr n ⟨st ru, st rm, vu, vm⟩).em)
    ∧ ((gdHeapLoop K df Y lr ru rm n (st, vu, vm)).2.1
        = (gdLoop K df Y lr n ⟨st ru, st rm, vu, vm⟩).vu)
    ∧ ((gdHeapLoop K df Y lr ru rm n (st, vu, vm)).2.2
        = (gdLoop K df Y lr n ⟨st ru, st rm, vu, vm⟩).vm)
    ∧ (∀ q, q ≠ ru → q ≠ rm →
        (gdHeapLoop K df Y lr ru rm n (st, vu, vm)).1 q = st q) := by
  intro n
  induction n with
  | zero => intro st vu vm; exact ⟨rfl, rfl, rfl, rfl, fun _ _ _ => rfl⟩
  | succ n ih =>
    intro st vu vm
    have hrm : rm ≠ ru := Ne.symm hne
    obtain ⟨hb1, hb2, hb3, hb4, hb5⟩ :=
      ih (gdHeapStep K df Y lr ru rm (st, vu, vm)).1
        (gdHeapStep K df Y lr ru rm (st, vu, vm)).2.1
        (gdHeapStep K df Y lr ru rm (st, vu, vm)).2.2
    have e1 : (gdHeapStep K df Y lr ru rm (st, vu, vm)).1 ru
        = (gdBody K df Y lr ⟨st ru, st rm, vu, vm⟩).eu := by
      simp [gdHeapStep, gdBody, updStore, hne, hrm]
    have e2 : (gdHeapStep K df Y lr ru rm (st, vu, vm)).1 rm
        = (gdBody K df Y lr ⟨st ru, st rm, vu, vm⟩).em := by
      simp [gdHeapStep, gdBody, updStore, hne, hrm]
    have e3 : (gdHeapStep K df Y lr ru rm (st, vu, vm)).2.1
        = (gdBody K df Y lr ⟨st ru, st rm, vu, vm⟩).vu := by
      simp [gdHeapStep, gdBody]
    have e4 : (gdHeapStep K df Y lr ru rm (st, vu, vm)).2.2
        = (gdBody K df Y lr ⟨st ru, st rm, vu, vm⟩).vm := by
      simp [gdHeapStep, gdBody]
    have e5 : ∀ q, q ≠ ru → q ≠ rm →
        (gdHeapStep K df Y lr ru rm (st, vu, vm)).1 q = st q := by
      intro q hqu hqm
      simp [gdHeapStep, updStore, hqu, hqm]
    have hstate : (⟨(gdHeapStep K df Y lr ru rm (st, vu, vm)).1 ru,
        (gdHeapStep K df Y lr ru rm (st, vu, vm)).1 rm,
        (gdHeapStep K df Y lr ru rm (st, vu, vm)).2.1,
        (gdHeapStep K df Y lr ru rm (st, vu, vm)).2.2⟩ : GDState)
        = gdBody K df Y lr ⟨st ru, st rm, vu, vm⟩ := by
      rw [e1, e2, e3, e4]
    refine ⟨?_, ?_, ?_, ?_, ?_⟩
    · show (gdHeapLoop K df Y lr ru rm n
          (gdHeapStep K df Y lr ru rm (st, vu, vm))).1 ru
        = (gdLoop K df Y lr n
          (gdBody K df Y lr ⟨st ru, st rm, vu, vm⟩)).eu
      rw [← hstate]
      exact hb1
    · show (gdHeapLoop K df Y lr ru rm n
          (gdHeapStep K df Y lr ru rm (st, vu, vm))).1 rm
        = (gdLoop K df Y lr n
          (gdBody K df Y lr ⟨st ru, st rm, vu, vm⟩)).em
      rw [← hstate]
      exact hb2
    · show (gdHeapLoop K df Y lr ru rm n
          (gdHeapStep K df Y lr ru rm (st, vu, vm))).2.1
        = (gdLoop K df Y lr n
          (gdBody K df Y lr ⟨st ru, st rm, vu, vm⟩)).vu
      rw [← hstate]
      exact hb3
    · show (gdHeapLoop K df Y lr ru rm n
          (gdHeapStep K df Y lr ru rm (st, vu, vm))).2.2
        = (gdLoop K df Y lr n
          (gdBody K df Y lr ⟨st ru, st rm, vu, vm⟩)).vm
      rw [← hstate]
      exact hb4
    · intro q hqu hqm
      show (gdHeapLoop K df Y lr ru rm n
          (gdHeapStep K df Y lr ru rm (st, vu, vm))).1 q = st q
      rw [hb5 q hqu hqm]
      exact e5 q hqu hqm

/-- C10: `gradient_descent` returns the very array objects it was handed
(same references), having mutated them in place to the trained matrices of
the pure model; every other array in the heap is untouched, and the inputs'
pre-training values are gone — any later use of the inputs observes the
trained matrices. -/
theorem gradient_descent_returns_inputs_inplace (K n_u n_m : ℕ)
    (df : List Obs) (st : Store) (ru rm : ℕ) (iterations : ℕ) (lr : ℚ)
    (hne : ru ≠ rm) :
    ((gradient_descent_heap K n_u n_m df st ru rm iterations lr).2.1 = ru)
    ∧ ((gradient_descent_heap K n_u n_m df st ru rm iterations lr).2.2 = rm)
    ∧ ((gradient_descent_heap K n_u n_m df st ru rm iterations lr).1 ru
        = (gradient_descent K n_u n_m df (st ru) (st rm) iterations lr).1)
    ∧ ((gradient_descent_heap K n_u n_m df st ru rm iterations lr).1 rm
        = (gradient_descent K n_u n_m df (st ru) (st rm) iterations lr).2)
    ∧ (∀ q, q ≠ ru → q ≠ rm →
        (gradient_descent_heap K n_u n_m df st ru rm iterations lr).1 q
          = st q) := by
  obtain ⟨h1, h2, _, _, h5⟩ :=
    gdHeapLoop_eq K df (df2matrix df n_u n_m) lr ru rm hne iterations st
      zerosMat zerosMat
  exact ⟨rfl, rfl, h1, h2, h5⟩

/-- Witness for C10 at concrete references `0 ≠ 1` and a one-observation
batch. -/
theorem gradient_descent_returns_inputs_inplace_witness :
    (0 : ℕ) ≠ 1
    ∧ (((gradient_descent_heap 1 1 1 [⟨0, 0, 1⟩] (fun _ _ _ => 1) 0 1 1
          (1 / 2)).2.1 = 0)
      ∧ ((gradient_descent_heap 1 1 1 [⟨0, 0, 1⟩] (fun _ _ _ => 1) 0 1 1
          (1 / 2)).2.2 = 1)
      ∧ ((gradient_descent_heap 1 1 1 [⟨0, 0, 1⟩] (fun _ _ _ => 1) 0 1 1
          (1 / 2)).1 0
        = (gradient_descent 1 1 1 [⟨0, 0, 1⟩] ((fun _ _ _ => 1) 0)
            ((fun _ _ _ => 1) 1) 1 (1 / 2)).1)
      ∧ ((gradient_descent_heap 1 1 1 [⟨0, 0, 1⟩] (fun _ _ _ => 1) 0 1 1
          (1 / 2)).1 1
        = (gradient_descent 1 1 1 [⟨0, 0, 1⟩] ((fun _ _ _ => 1) 0)
            ((fun _ _ _ => 1) 1) 1 (1 / 2)).2)
      ∧ (∀ q, q ≠ 0 → q ≠ 1 →
          (gradient_descent_heap 1 1 1 [⟨0, 0, 1⟩] (fun _ _ _ => 1) 0 1 1
            (1 / 2)).1 q = (fun _ _ _ => 1) q)) :=
  ⟨by decide,
   gradient_descent_returns_inputs_inplace 1 1 1 [⟨0, 0, 1⟩]
     (fun _ _ _ => 1) 0 1 1 (1 / 2) (by decide)⟩

/-- `create_embedings` with the PRNG stream explicit: `np.random.seed(3)`
pins the process-wide generator at the top of every call, so each call
reads the same fixed stream of draws `rand 0, rand 1, ...` (row-major);
numpy's `random.random` contract puts each draw in `[0, 1)`; the entry is
`6 * draw / K`.  The Mersenne-Twister stream itself is numpy library
state, not repository code, and is kept as a parameter. -/
def create_embedings (rand : ℕ → ℚ) (n K : ℕ) : Mat :=
  fun i j => 6 * rand (i * K + j) / K

/-- Supporting fact: with the library contract `0 ≤ draw < 1`, every entry
of `create_embedings` lies in the half-open interval `[0, 6/K)` — the
lower end is attainable whenever some draw is exactly `0`, so the open
interval `(0, 6/K)` of the spec is not guaranteed. -/
theorem create_embedings_range (rand : ℕ → ℚ)
    (hr : ∀ t, 0 ≤ rand t ∧ rand t < 1) (n K : ℕ) (hK : 0 < K)
    (i j : ℕ) :
    0 ≤ create_embedings rand n K i j
    ∧ create_embedings rand n K i j < 6 / K := by
  have h := hr (i * K + j)
  have hK' : (0 : ℚ) < K := by exact_mod_cast hK
  constructor
  · apply div_nonneg _ (le_of_lt hK')
    nlinarith [h.1]
  · show 6 * rand (i * K + j) / (K : ℚ) < 6 / K
    rw [div_lt_div_iff₀ hK' hK']
    nlinarith [h.1, h.2, hK']

/-- Supporting fact: two calls with identical arguments read the same
seeded stream and return the same matrix. -/
theorem create_embedings_deterministic (rand : ℕ → ℚ) (n K : ℕ) :
    create_embedings rand n K = create_embedings rand n K := rfl

end MovieRating
